import Mathlib

/-!
Verification development for the weenotify client (`src/weenotify.py`).

The byte stream is modelled as `List Nat` (each entry a byte value), and
protocol strings are kept as their byte sequences (the literals compared
against are pure ASCII, so byte-sequence equality coincides with the
Python string equality used by the source).

The module `packetRead` imported by `weenotify.py` is not part of the
repository sources available here; its four functions (`read_int`,
`read_str`, `read_typ`, `read_hda`) are modelled from the specification
(sections 4.1, 4.2 and 6) and are marked as such in their doc comments.
Everything else is translated from `src/weenotify.py`.
-/

/-- Byte sequence of an ASCII Lean string, used for the protocol literals. -/
def strB (s : String) : List Nat :=
  s.data.map Char.toNat

/-- The test `startsWith s p` models `s.startswith(p)` on byte sequences. -/
def startsWith : List Nat → List Nat → Bool
  | _, [] => true
  | [], _ :: _ => false
  | c :: cs, p :: ps => p = c && startsWith cs ps

/-- Modelled from the spec: `packetRead.read_int` is missing from `src/`.
Per section 4.1: exactly 4 bytes, big-endian, signed two's complement;
fails (here `none`) only if fewer than 4 bytes remain.
Returns the decoded value and the remaining buffer. -/
def read_int (b : List Nat) : Option (Int × List Nat) :=
  match b with
  | b0 :: b1 :: b2 :: b3 :: rest =>
      let u : Nat := ((b0 * 256 + b1) * 256 + b2) * 256 + b3
      some (if u < 2 ^ 31 then (u : Int) else (u : Int) - 2 ^ 32, rest)
  | _ => none

/-- Modelled from the spec: `packetRead.read_str` is missing from `src/`.
Per section 4.1: a 4-byte big-endian signed length followed by that many
bytes; length `-1` denotes the null string, which renders as empty text
downstream, so it is decoded to the empty byte sequence here. -/
def read_str (b : List Nat) : Option (List Nat × List Nat) :=
  match read_int b with
  | none => none
  | some (len, rest) =>
      if len = -1 then some ([], rest)
      else if len < 0 then none
      else if rest.length < len.toNat then none
      else some (rest.take len.toNat, rest.drop len.toNat)

/-- Modelled from the spec: `packetRead.read_typ` is missing from `src/`.
Per section 4.1: exactly 3 raw bytes naming a type (`str`, `int`, `hda`). -/
def read_typ (b : List Nat) : Option (List Nat × List Nat) :=
  match b with
  | t0 :: t1 :: t2 :: rest => some ([t0, t1, t2], rest)
  | _ => none

/-- A decoded hdata field value: integer, string, or array of strings
(the spec's data model, section 3: the consumed fields are `message`
(string), `tags_array` (sequence of strings) and `highlight` (integer)). -/
inductive HValue where
  | int (n : Int)
  | str (s : List Nat)
  | arr (xs : List (List Nat))
deriving DecidableEq, Repr

/-- One hdata record: an ordered association of field names to values. -/
def HdataRecord := List (List Nat × HValue)

instance : DecidableEq HdataRecord := by
  unfold HdataRecord
  infer_instance

/-- Dictionary lookup `hda[name]` on a record (field names are unique,
as they come from a single keys header). -/
def lookupField (r : HdataRecord) (name : List Nat) : Option HValue :=
  match r with
  | [] => none
  | (k, v) :: rest => if k = name then some v else lookupField rest name

/-- Split a byte sequence on a separator byte (used for the
`name1:type1,name2:type2,...` keys header). -/
def splitByte (sep : Nat) : List Nat → List (List Nat)
  | [] => [[]]
  | c :: rest =>
      let r := splitByte sep rest
      if c = sep then [] :: r
      else
        match r with
        | [] => [[c]]
        | h :: t => (c :: h) :: t

/-- Parse one `name:type` item of the keys header. -/
def parseKey (piece : List Nat) : List Nat × List Nat :=
  (piece.takeWhile (fun c => c ≠ 58), (piece.dropWhile (fun c => c ≠ 58)).drop 1)

/-- Modelled from the spec: decode a string-array value (the encoding of
`tags_array`, a sequence of strings per the data model): a 3-byte element
type, a 4-byte count, then that many values of the element type; only
the string element type is given semantics, others fail. -/
def readStrArray (b : List Nat) : Option (List (List Nat) × List Nat) :=
  match read_typ b with
  | none => none
  | some (elemTyp, b1) =>
      if elemTyp = strB "str" then
        match read_int b1 with
        | none => none
        | some (count, b2) => readStrings count.toNat b2
      else none
where
  /-- Decode `n` consecutive strings. -/
  readStrings : Nat → List Nat → Option (List (List Nat) × List Nat)
    | 0, b => some ([], b)
    | n + 1, b =>
        match read_str b with
        | none => none
        | some (s, rest) =>
            match readStrings n rest with
            | none => none
            | some (ss, rest2) => some (s :: ss, rest2)

/-- Decode one value according to its declared type tag (`str`, `int`,
`arr`); per spec section 4.2 the dispatch uses the Primitive Decoder. -/
def decodeValue (typ : List Nat) (b : List Nat) : Option (HValue × List Nat) :=
  if typ = strB "str" then
    match read_str b with
    | none => none
    | some (s, rest) => some (.str s, rest)
  else if typ = strB "int" then
    match read_int b with
    | none => none
    | some (n, rest) => some (.int n, rest)
  else if typ = strB "arr" then
    match readStrArray b with
    | none => none
    | some (xs, rest) => some (.arr xs, rest)
  else none

/-- Decode one record: one value per declared key, in header order. -/
def decodeRecord (keys : List (List Nat × List Nat)) (b : List Nat) :
    Option (HdataRecord × List Nat) :=
  match keys with
  | [] => some ([], b)
  | (name, typ) :: rest =>
      match decodeValue typ b with
      | none => none
      | some (v, b1) =>
          match decodeRecord rest b1 with
          | none => none
          | some (r, b2) => some ((name, v) :: r, b2)

/-- Decode `n` consecutive records. -/
def decodeRecords (keys : List (List Nat × List Nat)) :
    Nat → List Nat → Option (List HdataRecord × List Nat)
  | 0, b => some ([], b)
  | n + 1, b =>
      match decodeRecord keys b with
      | none => none
      | some (r, b1) =>
          match decodeRecords keys n b1 with
          | none => none
          | some (rs, b2) => some (r :: rs, b2)

/-- Modelled from the spec: `packetRead.read_hda` is missing from `src/`.
Per sections 4.2 and 6: a path string (skipped), a keys string
`name1:type1,name2:type2,...`, a 4-byte count, then `count` records of
one value per declared key, in header order. -/
def read_hda (b : List Nat) : Option (List HdataRecord × List Nat) :=
  match read_str b with
  | none => none
  | some (_path, b1) =>
      match read_str b1 with
      | none => none
      | some (keysStr, b2) =>
          let keys := (splitByte 44 keysStr).map parseKey
          match read_int b2 with
          | none => none
          | some (count, b3) => decodeRecords keys count.toNat b3

/-- A notification event emitted by the message-routing part of
`getResponse` (the calls to `gotHighlight` / `gotPrivMsg`). -/
inductive Event where
  | highlight (message nick : List Nat)
  | privmsg (message nick : List Nat)
deriving DecidableEq, Repr

/-- The nickname of an event. -/
def eventNick : Event → List Nat
  | .highlight _ n => n
  | .privmsg _ n => n

/-- The nick-extraction loop of `getResponse` (lines 98-101):
`nick = ""`, then every tag with prefix `nick_` overwrites `nick`
with the tag minus its first 5 characters. -/
def nickOf (tags : List (List Nat)) : List Nat :=
  tags.foldl (fun nick tag => if startsWith tag (strB "nick_") then tag.drop 5 else nick) []

/-- The notify-scanning loop of `getResponse` (lines 106-111): scan
the tags; on a tag with prefix `notify_` whose remainder is `private`,
emit a private-message event and break; otherwise keep scanning. -/
def notifyScan (msg nick : List Nat) : List (List Nat) → List Event
  | [] => []
  | tag :: rest =>
      if startsWith tag (strB "notify_") then
        if tag.drop 7 = strB "private" then [.privmsg msg nick]
        else notifyScan msg nick rest
      else notifyScan msg nick rest

/-- The per-record body of the `for hda in hdaData` loop of
`getResponse` (lines 96-111), as the list of events it emits.
`none` models the dynamic errors the Python would raise if a consumed
field is absent or not of its expected shape. -/
def routeRecord (r : HdataRecord) : Option (List Event) :=
  match lookupField r (strB "message"), lookupField r (strB "tags_array"),
      lookupField r (strB "highlight") with
  | some (.str msg), some (.arr tags), some (.int h) =>
      let nick := nickOf tags
      if h > 0 then some [.highlight msg nick]
      else some (notifyScan msg nick tags)
  | _, _, _ => none

/-- The whole record loop: events of every record, in record order. -/
def routeAll : List HdataRecord → Option (List Event)
  | [] => some []
  | r :: rest =>
      match routeRecord r with
      | none => none
      | some evs =>
          match routeAll rest with
          | none => none
          | some more => some (evs ++ more)

/-- `READ_AT_ONCE` of `getResponse` (line 62). -/
def READ_AT_ONCE : Nat := 4096

/-- The accumulation loop of `getResponse` (lines 76-82), with the
socket modelled as the list of byte sequences the successive `recv`
calls return (an exhausted list models a closed peer: `recv` yields
the empty sequence). Returns the assembled buffer (`none` when the
frame is abandoned as incomplete) and the unconsumed reads. -/
def accumLoop : (sockBytes lastPacket : List Nat) → (mLen : Int) →
    (reads : List (List Nat)) → Option (List Nat) × List (List Nat)
  | sockBytes, lastPacket, mLen, reads =>
      if (sockBytes.length : Int) < mLen then
        if lastPacket.length < READ_AT_ONCE then (none, reads)
        else
          match reads with
          | [] => (none, [])
          | r :: rest => accumLoop (sockBytes ++ r) r mLen rest
      else (some sockBytes, reads)

/-- The message-routing tail of `getResponse` (lines 84-111), on the
fully assembled buffer: take the body past byte offset 5, decode the
identifier, and for a `_buffer_line_added` frame with an `hda` payload,
decode the records and emit their events. `some []` covers the two
ignore branches; `none` models an uncaught decode exception. -/
def routeBody (sockBytes : List Nat) : Option (List Event) :=
  match read_str (sockBytes.drop 5) with
  | none => none
  | some (ident, body1) =>
      if ident ≠ strB "_buffer_line_added" then some []
      else
        match read_typ body1 with
        | none => none
        | some (dataTyp, body2) =>
            if dataTyp ≠ strB "hda" then some []
            else
              match read_hda body2 with
              | none => none
              | some (hdaData, _) => routeAll hdaData

/-- `getResponse` (lines 61-113), over the list of byte sequences the
successive `recv` calls return. Yields the returned boolean, the events
emitted while routing (the calls to `gotHighlight` / `gotPrivMsg`, in
call order), and the reads left unconsumed for later invocations;
`none` models an uncaught decode exception. -/
def getResponse (reads : List (List Nat)) : Option (Bool × List Event × List (List Nat)) :=
  match reads with
  | [] => some (false, [], [])
  | sockBytes :: rest =>
      if sockBytes = [] then some (false, [], rest)
      else if sockBytes.length < 5 then some (true, [], rest)
      else if sockBytes.getD 4 0 ≠ 0 then some (true, [], rest)
      else
        match read_int sockBytes with
        | none => none
        | some (mLen, _) =>
            match accumLoop sockBytes sockBytes mLen rest with
            | (none, remaining) => some (true, [], remaining)
            | (some buf, remaining) =>
                match routeBody buf with
                | none => none
                | some evs => some (true, evs, remaining)

/-- The configuration mapping, restricted to the two keys the event
dispatch consumes. `none` models an absent key and Python `None` alike;
the empty sequence models the empty string (all three are falsy in the
source's `not conf[...]` test). -/
structure Conf where
  highlightAction : Option (List Nat)
  privmsgAction : Option (List Nat)
deriving DecidableEq, Repr

/-- `expandPaths` (line 35). Modelled from the spec: `os.path.expanduser`
is boundary glue outside the core, modelled as the identity on paths. -/
def expandPaths (path : List Nat) : List Nat := path

/-- `safeCall` (lines 38-45): an empty argument vector is an error and
no program runs (`none`); otherwise the vector is the invocation. -/
def safeCall (callArray : List (List Nat)) : Option (List (List Nat)) :=
  if callArray.length = 0 then none else some callArray

/-- `gotHighlight` (lines 47-52): the external invocation performed for
a highlight event (`none` when no action is configured). -/
def gotHighlight (message nick : List Nat) (conf : Conf) : Option (List (List Nat)) :=
  match conf.highlightAction with
  | none => none
  | some a => if a = [] then none else safeCall [expandPaths a, message, nick]

/-- `gotPrivMsg` (lines 54-59): the external invocation performed for
a private-message event (`none` when no action is configured). -/
def gotPrivMsg (message nick : List Nat) (conf : Conf) : Option (List (List Nat)) :=
  match conf.privmsgAction with
  | none => none
  | some a => if a = [] then none else safeCall [expandPaths a, message, nick]

/-- The accumulation loop never invents reads: what it leaves is a
suffix of what it was given. -/
theorem accumLoop_remaining_length (sockBytes lastPacket : List Nat) (mLen : Int)
    (reads : List (List Nat)) :
    (accumLoop sockBytes lastPacket mLen reads).2.length ≤ reads.length := by
  induction reads generalizing sockBytes lastPacket with
  | nil =>
      rw [accumLoop]
      split
      · split
        · exact le_refl _
        · exact le_refl _
      · exact le_refl _
  | cons r rest ih =>
      rw [accumLoop]
      split
      · split
        · exact le_refl _
        · exact le_trans (ih _ _) (Nat.le_succ _)
      · exact le_refl _


/-- `getResponse` consumes at least its first read. -/
theorem getResponse_remaining_length (first : List Nat) (rest : List (List Nat))
    (b : Bool) (evs : List Event) (remaining : List (List Nat))
    (h : getResponse (first :: rest) = some (b, evs, remaining)) :
    remaining.length ≤ rest.length := by
  rw [getResponse] at h
  by_cases h1 : first = []
  · rw [if_pos h1] at h
    simp only [Option.some.injEq, Prod.mk.injEq] at h
    exact le_of_eq (by rw [h.2.2])
  rw [if_neg h1] at h
  by_cases h2 : first.length < 5
  · rw [if_pos h2] at h
    simp only [Option.some.injEq, Prod.mk.injEq] at h
    exact le_of_eq (by rw [h.2.2])
  rw [if_neg h2] at h
  by_cases h3 : first.getD 4 0 ≠ 0
  · rw [if_pos h3] at h
    simp only [Option.some.injEq, Prod.mk.injEq] at h
    exact le_of_eq (by rw [h.2.2])
  rw [if_neg h3] at h
  match hint : read_int first with
  | none => simp only [hint] at h; exact Option.noConfusion h
  | some (mLen, tl) =>
    simp only [hint] at h
    have ha := accumLoop_remaining_length first first mLen rest
    match hacc : accumLoop first first mLen rest with
    | (none, rem) =>
        simp only [hacc] at h ha
        simp only [Option.some.injEq, Prod.mk.injEq] at h
        calc remaining.length = rem.length := by rw [h.2.2]
          _ ≤ rest.length := ha
    | (some buf, rem) =>
        simp only [hacc] at h ha
        match hrb : routeBody buf with
        | none => simp only [hrb] at h; exact Option.noConfusion h
        | some evs2 =>
            simp only [hrb] at h
            simp only [Option.some.injEq, Prod.mk.injEq] at h
            calc remaining.length = rem.length := by rw [h.2.2]
              _ ≤ rest.length := ha

/-- On a successful continue result, `getResponse` strictly shrinks the
list of pending reads. -/
theorem getResponse_remaining_lt (reads : List (List Nat)) (evs : List Event)
    (remaining : List (List Nat))
    (h : getResponse reads = some (true, evs, remaining)) :
    remaining.length < reads.length := by
  match reads with
  | [] => simp [getResponse] at h
  | first :: rest =>
      have := getResponse_remaining_length first rest true evs remaining h
      simp only [List.length_cons]
      omega

/-- The read loop of `main` (lines 196-197): invoke `getResponse` until
it returns `False`, collecting the events of every invocation; `none`
models an uncaught decode exception ending the process. -/
def readLoop (reads : List (List Nat)) : Option (List Event) :=
  match h : getResponse reads with
  | none => none
  | some (false, evs, _) => some evs
  | some (true, evs, remaining) =>
      match readLoop remaining with
      | none => none
      | some more => some (evs ++ more)
termination_by reads.length
decreasing_by
  exact getResponse_remaining_lt reads evs remaining h

/-- Big-endian 4-byte encoding of a natural number below 2 ^ 32 (test
vector helper). -/
def intBytes4 (n : Nat) : List Nat :=
  [n / 2 ^ 24 % 256, n / 2 ^ 16 % 256, n / 256 % 256, n % 256]

/-- Length-prefixed wire encoding of an ASCII string (test vector
helper). -/
def encStr (s : String) : List Nat :=
  intBytes4 (strB s).length ++ strB s

/-- Wire encoding of a string-array value (test vector helper). -/
def encTags (ts : List String) : List Nat :=
  strB "str" ++ intBytes4 ts.length ++ (ts.map encStr).flatten

/-- A complete buffer-line-added frame holding one record with the given
message, tags and highlight bytes (test vector helper). -/
def mkFrame (msg : String) (tags : List String) (hl : Nat) : List Nat :=
  let payload := [255, 255, 255, 255] ++
    encStr "message:str,tags_array:arr,highlight:int" ++ intBytes4 1 ++
    (encStr msg ++ encTags tags ++ intBytes4 hl)
  let body := encStr "_buffer_line_added" ++ strB "hda" ++ payload
  intBytes4 (body.length + 5) ++ [0] ++ body

/-- A decoded record with the three consumed fields (test vector
helper). -/
def mkRecord (msg : String) (tags : List String) (hl : Int) : HdataRecord :=
  [(strB "message", .str (strB msg)), (strB "tags_array", .arr (tags.map strB)),
    (strB "highlight", .int hl)]

/-- Every event the notify scan emits is a private-message event with
the given message and nick. -/
theorem notifyScan_mem (msg nick : List Nat) (tags : List (List Nat)) (e : Event)
    (h : e ∈ notifyScan msg nick tags) : e = .privmsg msg nick := by
  induction tags with
  | nil => simp [notifyScan] at h
  | cons t ts ih =>
      rw [notifyScan] at h
      by_cases hs : startsWith t (strB "notify_") = true
      · rw [if_pos hs] at h
        by_cases hp : t.drop 7 = strB "private"
        · rw [if_pos hp] at h
          simpa using h
        · rw [if_neg hp] at h
          exact ih h
      · rw [if_neg hs] at h
        exact ih h

/-- When some tag carries the private notify level, the notify scan
emits exactly one private-message event (the break after the emit). -/
theorem notifyScan_private (msg nick : List Nat) (tags : List (List Nat))
    (h : ∃ t ∈ tags, startsWith t (strB "notify_") = true ∧ t.drop 7 = strB "private") :
    notifyScan msg nick tags = [.privmsg msg nick] := by
  induction tags with
  | nil => simp at h
  | cons t ts ih =>
      rw [notifyScan]
      by_cases hs : startsWith t (strB "notify_") = true
      · rw [if_pos hs]
        by_cases hp : t.drop 7 = strB "private"
        · rw [if_pos hp]
        · rw [if_neg hp]
          apply ih
          obtain ⟨u, hu, h1, h2⟩ := h
          rcases List.mem_cons.mp hu with rfl | hu2
          · exact absurd h2 hp
          · exact ⟨u, hu2, h1, h2⟩
      · rw [if_neg hs]
        apply ih
        obtain ⟨u, hu, h1, h2⟩ := h
        rcases List.mem_cons.mp hu with rfl | hu2
        · exact absurd h1 hs
        · exact ⟨u, hu2, h1, h2⟩

/-- When no tag carries the private notify level, the notify scan emits
nothing. -/
theorem notifyScan_empty (msg nick : List Nat) (tags : List (List Nat))
    (h : ∀ t ∈ tags, startsWith t (strB "notify_") = true → t.drop 7 ≠ strB "private") :
    notifyScan msg nick tags = [] := by
  induction tags with
  | nil => rfl
  | cons t ts ih =>
      rw [notifyScan]
      by_cases hs : startsWith t (strB "notify_") = true
      · rw [if_pos hs]
        rw [if_neg (h t (List.mem_cons_self t ts) hs)]
        exact ih fun u hu => h u (List.mem_cons_of_mem t hu)
      · rw [if_neg hs]
        exact ih fun u hu => h u (List.mem_cons_of_mem t hu)

/-- The overwrite fold computing the nick keeps the last matching tag. -/
theorem nickFold_last (tags : List (List Nat)) : ∀ a : List Nat,
    tags.foldl (fun nick tag => if startsWith tag (strB "nick_") then tag.drop 5 else nick) a =
      (((tags.filter fun t => startsWith t (strB "nick_")).getLast?).map fun t => t.drop 5).getD a := by
  induction tags using List.reverseRecOn with
  | nil => intro a; rfl
  | append_singleton ts t ih =>
      intro a
      rw [List.foldl_append]
      simp only [List.foldl_cons, List.foldl_nil]
      rw [List.filter_append]
      by_cases hp : startsWith t (strB "nick_") = true
      · rw [if_pos hp]
        have hf : List.filter (fun u => startsWith u (strB "nick_")) [t] = [t] := by
          simp [hp]
        rw [hf, List.getLast?_append_of_ne_nil _ (by simp)]
        simp
      · rw [if_neg hp]
        have hf : List.filter (fun u => startsWith u (strB "nick_")) [t] = [] := by
          simp [hp]
        rw [hf, List.append_nil]
        exact ih a

/-- The nick of a record is the last tag with the nick prefix, with the
prefix stripped, or empty when no tag matches. -/
theorem nickOf_eq_last (tags : List (List Nat)) :
    nickOf tags =
      (((tags.filter fun t => startsWith t (strB "nick_")).getLast?).map fun t => t.drop 5).getD [] := by
  rw [nickOf]
  exact nickFold_last tags []

/-- C2 (amended): for every decoded record whose `highlight` field is
positive, the router emits exactly one Highlight event carrying the
message and the computed nick, and no PrivateMessage event, regardless
of the tags. -/
theorem claim_C2_highlight (r : HdataRecord) (msg : List Nat) (tags : List (List Nat)) (hl : Int)
    (hm : lookupField r (strB "message") = some (.str msg))
    (ht : lookupField r (strB "tags_array") = some (.arr tags))
    (hh : lookupField r (strB "highlight") = some (.int hl))
    (hpos : 0 < hl) :
    routeRecord r = some [Event.highlight msg (nickOf tags)] := by
  simp only [routeRecord, hm, ht, hh]
  rw [if_pos hpos]

/-- C2 witness: the amended claim applied to a concrete record. -/
theorem claim_C2_witness :
    routeRecord (mkRecord "m" ["nick_bob"] 1) =
      some [Event.highlight (strB "m") (nickOf [strB "nick_bob"])] :=
  claim_C2_highlight (mkRecord "m" ["nick_bob"] 1) (strB "m") [strB "nick_bob"] 1
    (by decide) (by decide) (by decide) (by decide)

/-- C2 counterexample: a record whose `highlight` field decodes to `-1`
(wire bytes FF FF FF FF) is nonzero, yet the router emits a
PrivateMessage event and no Highlight event, because the source tests
`hda['highlight'] > 0`, not nonzero. -/
theorem claim_C2_counterexample :
    ((-1 : Int) ≠ 0) ∧
    routeRecord (mkRecord "m" ["notify_private"] (-1)) = some [Event.privmsg (strB "m") []] ∧
    getResponse [mkFrame "m" ["notify_private"] (2 ^ 32 - 1)] =
      some (true, [Event.privmsg (strB "m") []], []) := by decide

/-- C3 (amended): the nickname attached to any emitted event is the
last entry of `tags_array` having prefix `nick_`, with that prefix
stripped; empty when no entry has that prefix. -/
theorem claim_C3_nickname (r : HdataRecord) (msg : List Nat) (tags : List (List Nat)) (hl : Int)
    (hm : lookupField r (strB "message") = some (.str msg))
    (ht : lookupField r (strB "tags_array") = some (.arr tags))
    (hh : lookupField r (strB "highlight") = some (.int hl))
    (evs : List Event) (he : routeRecord r = some evs) (e : Event) (hmem : e ∈ evs) :
    eventNick e =
      (((tags.filter fun t => startsWith t (strB "nick_")).getLast?).map fun t => t.drop 5).getD [] := by
  rw [← nickOf_eq_last]
  simp only [routeRecord, hm, ht, hh] at he
  by_cases hpos : hl > 0
  · rw [if_pos hpos] at he
    obtain rfl := Option.some.inj he
    obtain rfl : e = Event.highlight msg (nickOf tags) := by simpa using hmem
    rfl
  · rw [if_neg hpos] at he
    obtain rfl := Option.some.inj he
    obtain rfl := notifyScan_mem msg (nickOf tags) tags e hmem
    rfl

/-- C3 witness: the amended claim applied to a concrete record with two
nick tags. -/
theorem claim_C3_witness :
    eventNick (Event.highlight (strB "m") (strB "bob")) =
      ((([strB "nick_alice", strB "nick_bob"].filter fun t =>
          startsWith t (strB "nick_")).getLast?).map fun t => t.drop 5).getD [] :=
  claim_C3_nickname (mkRecord "m" ["nick_alice", "nick_bob"] 1) (strB "m")
    [strB "nick_alice", strB "nick_bob"] 1 (by decide) (by decide) (by decide)
    [Event.highlight (strB "m") (strB "bob")] (by decide)
    (Event.highlight (strB "m") (strB "bob")) (by decide)

/-- C3 counterexample: with tags `nick_alice`, `nick_bob`, the first
matching entry stripped is `alice`, but the emitted event carries
`bob` — the loop keeps the last match, not the first. -/
theorem claim_C3_counterexample :
    routeRecord (mkRecord "m" ["nick_alice", "nick_bob"] 1) =
      some [Event.highlight (strB "m") (strB "bob")] ∧
    (([strB "nick_alice", strB "nick_bob"].filter fun t =>
        startsWith t (strB "nick_")).head? = some (strB "nick_alice")) ∧
    (strB "nick_alice").drop 5 = strB "alice" ∧
    strB "bob" ≠ strB "alice" := by decide

/-- C4: for every decoded record with `highlight` equal to zero, one
PrivateMessage event is emitted when some tag has prefix `notify_` and
remainder `private`, and no event is emitted when every such tag has a
different remainder. -/
theorem claim_C4_private (r : HdataRecord) (msg : List Nat) (tags : List (List Nat))
    (hm : lookupField r (strB "message") = some (.str msg))
    (ht : lookupField r (strB "tags_array") = some (.arr tags))
    (hh : lookupField r (strB "highlight") = some (.int 0)) :
    ((∃ t ∈ tags, startsWith t (strB "notify_") = true ∧ t.drop 7 = strB "private") →
      routeRecord r = some [Event.privmsg msg (nickOf tags)]) ∧
    ((∀ t ∈ tags, startsWith t (strB "notify_") = true → t.drop 7 ≠ strB "private") →
      routeRecord r = some []) := by
  constructor
  · intro hex
    simp only [routeRecord, hm, ht, hh]
    rw [if_neg (by decide), notifyScan_private msg (nickOf tags) tags hex]
  · intro hnone
    simp only [routeRecord, hm, ht, hh]
    rw [if_neg (by decide), notifyScan_empty msg (nickOf tags) tags hnone]

/-- C4 witness: the claim applied to a concrete record carrying a
private notify tag. -/
theorem claim_C4_witness :
    routeRecord (mkRecord "yo" ["nick_bob", "notify_private"] 0) =
      some [Event.privmsg (strB "yo") (nickOf [strB "nick_bob", strB "notify_private"])] :=
  (claim_C4_private (mkRecord "yo" ["nick_bob", "notify_private"] 0) (strB "yo")
    [strB "nick_bob", strB "notify_private"] (by decide) (by decide) (by decide)).1
    (by decide)

/-- C7: a first read of zero bytes yields the stream-closed result
`False` with no events, and the read loop of `main` stops on it,
performing no further reads. -/
theorem claim_C7_closed (rest : List (List Nat)) :
    getResponse ([] :: rest) = some (false, [], rest) ∧
    readLoop ([] :: rest) = some [] := by
  have h1 : getResponse ([] :: rest) = some (false, [], rest) := by
    rw [getResponse]
    simp
  refine ⟨h1, ?_⟩
  rw [readLoop]
  split
  · rename_i heq
    rw [h1] at heq
    exact Option.noConfusion heq
  · rename_i evs x heq
    rw [h1] at heq
    obtain ⟨rfl, -⟩ : evs = [] ∧ rest = x := by simpa using heq
    rfl
  · rename_i evs remaining heq
    rw [h1] at heq
    simp at heq

/-- C8: for both event kinds, a configured nonempty action is invoked
with exactly two arguments, the message then the nick; an absent or
empty action drops the event with no invocation. -/
theorem claim_C8_dispatch (msg nick : List Nat) (conf : Conf) :
    (∀ a, conf.highlightAction = some a → a ≠ [] →
      gotHighlight msg nick conf = some [expandPaths a, msg, nick]) ∧
    (conf.highlightAction = none ∨ conf.highlightAction = some [] →
      gotHighlight msg nick conf = none) ∧
    (∀ a, conf.privmsgAction = some a → a ≠ [] →
      gotPrivMsg msg nick conf = some [expandPaths a, msg, nick]) ∧
    (conf.privmsgAction = none ∨ conf.privmsgAction = some [] →
      gotPrivMsg msg nick conf = none) := by
  refine ⟨?_, ?_, ?_, ?_⟩
  · intro a ha hne
    rw [gotHighlight, ha]
    simp only [if_neg hne]
    rw [safeCall, if_neg (by simp)]
  · rintro (ha | ha) <;> rw [gotHighlight, ha]
    simp
  · intro a ha hne
    rw [gotPrivMsg, ha]
    simp only [if_neg hne]
    rw [safeCall, if_neg (by simp)]
  · rintro (ha | ha) <;> rw [gotPrivMsg, ha]
    simp

/-- One unfolding step of the accumulation loop: with the buffer still
short and a full previous packet, the next read is consumed. -/
theorem accumLoop_step (sb lp : List Nat) (mLen : Int) (r : List Nat)
    (rest : List (List Nat)) (h1 : (sb.length : Int) < mLen)
    (h2 : ¬ lp.length < READ_AT_ONCE) :
    accumLoop sb lp mLen (r :: rest) = accumLoop (sb ++ r) r mLen rest := by
  rw [accumLoop.eq_def]
  simp only [if_pos h1, if_neg h2]

/-- The accumulation loop abandons the frame when the buffer is short
and the previous packet was not full. -/
theorem accumLoop_stop_short (sb lp : List Nat) (mLen : Int)
    (reads : List (List Nat)) (h1 : (sb.length : Int) < mLen)
    (h2 : lp.length < READ_AT_ONCE) :
    accumLoop sb lp mLen reads = (none, reads) := by
  rw [accumLoop.eq_def]
  simp only [if_pos h1, if_pos h2]

/-- The accumulation loop stops with the assembled buffer once the
declared length is reached. -/
theorem accumLoop_stop_done (sb lp : List Nat) (mLen : Int)
    (reads : List (List Nat)) (h1 : ¬ (sb.length : Int) < mLen) :
    accumLoop sb lp mLen reads = (some sb, reads) := by
  rw [accumLoop.eq_def]
  simp only [if_neg h1]

/-- The last element of a list of full reads (with a full default) is
full. -/
theorem getLastD_length (cs : List (List Nat)) (d : List Nat)
    (hcs : ∀ c ∈ cs, c.length = READ_AT_ONCE) (hd : d.length = READ_AT_ONCE) :
    (cs.getLastD d).length = READ_AT_ONCE := by
  induction cs generalizing d with
  | nil => exact hd
  | cons c cs ih =>
      rw [List.getLastD_cons]
      exact ih c (fun u hu => hcs u (List.mem_cons_of_mem c hu))
        (hcs c (List.mem_cons_self c cs))

/-- Unfolding of `getResponse` past the header checks: the result is
determined by the accumulation loop and the body routing. -/
theorem getResponse_cons (sockBytes : List Nat) (rest : List (List Nat))
    (mLen : Int) (tl : List Nat) (hne : sockBytes ≠ [])
    (h5 : ¬ sockBytes.length < 5) (hc : sockBytes.getD 4 0 = 0)
    (hint : read_int sockBytes = some (mLen, tl)) :
    getResponse (sockBytes :: rest) =
      match accumLoop sockBytes sockBytes mLen rest with
      | (none, remaining) => some (true, [], remaining)
      | (some buf, remaining) =>
          match routeBody buf with
          | none => none
          | some evs => some (true, evs, remaining) := by
  rw [getResponse, if_neg hne, if_neg h5, if_neg (not_not_intro hc), hint]

/-- The accumulation loop consumes a run of full reads that leaves the
buffer still short of the declared length. -/
theorem accumLoop_consume (cs : List (List Nat)) :
    ∀ (sb lp : List Nat) (mLen : Int) (rest : List (List Nat)),
    ¬ lp.length < READ_AT_ONCE →
    (∀ c ∈ cs, ¬ c.length < READ_AT_ONCE) →
    ((sb.length : Int) + cs.flatten.length < mLen) →
    accumLoop sb lp mLen (cs ++ rest) =
      accumLoop (sb ++ cs.flatten) (cs.getLastD lp) mLen rest := by
  induction cs with
  | nil =>
      intro sb lp mLen rest hlp hcs hlen
      simp
  | cons c cs ih =>
      intro sb lp mLen rest hlp hcs hlen
      have hflat : ((c :: cs).flatten).length = c.length + cs.flatten.length := by
        rw [List.flatten_cons, List.length_append]
      have hsb : (sb.length : Int) < mLen := by
        rw [hflat] at hlen
        push_cast at hlen
        omega
      have h2 : ((sb ++ c).length : Int) + cs.flatten.length < mLen := by
        rw [List.length_append]
        rw [hflat] at hlen
        push_cast at hlen ⊢
        omega
      rw [List.cons_append, accumLoop_step sb lp mLen c (cs ++ rest) hsb hlp]
      rw [ih (sb ++ c) c mLen rest (hcs c (List.mem_cons_self c cs))
        (fun u hu => hcs u (List.mem_cons_of_mem c hu)) h2]
      rw [List.flatten_cons, ← List.append_assoc, List.getLastD_cons]

/-- A read shorter than the chunk size, arriving while the buffer is
still short of the declared length, makes the loop abandon the frame
and leave exactly the later reads pending. -/
theorem accumLoop_short_read (cs : List (List Nat)) (sb lp bad : List Nat)
    (mLen : Int) (rest : List (List Nat))
    (hlp : lp.length = READ_AT_ONCE)
    (hcs : ∀ c ∈ cs, c.length = READ_AT_ONCE)
    (hbad : bad.length < READ_AT_ONCE)
    (hlen : (sb.length : Int) + cs.flatten.length + bad.length < mLen) :
    accumLoop sb lp mLen (cs ++ bad :: rest) = (none, rest) := by
  have hbad0 : (0 : Int) ≤ bad.length := by positivity
  rw [accumLoop_consume cs sb lp mLen (bad :: rest)
    (by rw [hlp]; exact lt_irrefl _)
    (fun c hc => by rw [hcs c hc]; exact lt_irrefl _)
    (by omega)]
  have h1 : (((sb ++ cs.flatten).length : Int)) < mLen := by
    rw [List.length_append]
    push_cast
    omega
  have h2 : ¬ (cs.getLastD lp).length < READ_AT_ONCE := by
    rw [getLastD_length cs lp hcs hlp]
    exact lt_irrefl _
  rw [accumLoop_step _ _ _ _ _ h1 h2]
  apply accumLoop_stop_short
  · rw [List.length_append, List.length_append]
    push_cast
    omega
  · exact hbad

/-- A run of full reads followed by a final read that completes the
declared length assembles the whole frame and leaves exactly the later
reads pending. -/
theorem accumLoop_complete (cs : List (List Nat)) (sb lp : List Nat)
    (mLen : Int) (rest : List (List Nat))
    (hlp : lp.length = READ_AT_ONCE)
    (hcs : ∀ c ∈ cs.dropLast, c.length = READ_AT_ONCE)
    (hne : cs ≠ [])
    (hlast : cs.getLast hne ≠ [])
    (hsum : (sb.length : Int) + cs.flatten.length = mLen) :
    accumLoop sb lp mLen (cs ++ rest) = (some (sb ++ cs.flatten), rest) := by
  have hsplit : cs.dropLast ++ [cs.getLast hne] = cs := List.dropLast_append_getLast hne
  have hflat : cs.flatten = cs.dropLast.flatten ++ cs.getLast hne := by
    conv_lhs => rw [← hsplit]
    rw [List.flatten_append]
    simp
  have hlastlen : (0 : Int) < (cs.getLast hne).length := by
    exact_mod_cast List.length_pos.mpr hlast
  have hshort : (sb.length : Int) + cs.dropLast.flatten.length < mLen := by
    rw [hflat, List.length_append] at hsum
    push_cast at hsum ⊢
    omega
  have hstep : accumLoop sb lp mLen (cs ++ rest) =
      accumLoop (sb ++ cs.dropLast.flatten) (cs.dropLast.getLastD lp) mLen
        (cs.getLast hne :: rest) := by
    conv_lhs => rw [← hsplit, List.append_assoc, List.singleton_append]
    exact accumLoop_consume cs.dropLast sb lp mLen (cs.getLast hne :: rest)
      (by rw [hlp]; exact lt_irrefl _)
      (fun c hc => by rw [hcs c hc]; exact lt_irrefl _)
      hshort
  rw [hstep]
  rw [accumLoop_step _ _ _ _ _ (by rw [List.length_append]; push_cast; omega)
    (by rw [getLastD_length cs.dropLast lp hcs hlp]; exact lt_irrefl _)]
  rw [accumLoop_stop_done _ _ _ _ (by
    have h := hsum
    rw [hflat, List.length_append] at h
    rw [List.length_append, List.length_append]
    push_cast at h ⊢
    omega)]
  rw [List.append_assoc, ← hflat]

/-- C6: malformed frames — a first read shorter than 5 bytes, a nonzero
compression byte, a first read short of both the chunk size and the
declared length, or a short read arriving mid-accumulation — emit no
events and yield the retry result `True`, with the frame bytes
discarded. -/
theorem claim_C6_malformed (sockBytes : List Nat) (rest : List (List Nat)) :
    (sockBytes ≠ [] → sockBytes.length < 5 →
      getResponse (sockBytes :: rest) = some (true, [], rest)) ∧
    (¬ sockBytes.length < 5 → sockBytes.getD 4 0 ≠ 0 →
      getResponse (sockBytes :: rest) = some (true, [], rest)) ∧
    (∀ mLen tl, ¬ sockBytes.length < 5 → sockBytes.getD 4 0 = 0 →
      read_int sockBytes = some (mLen, tl) →
      sockBytes.length < READ_AT_ONCE → (sockBytes.length : Int) < mLen →
      getResponse (sockBytes :: rest) = some (true, [], rest)) ∧
    (∀ mLen tl cs bad rest2, sockBytes.length = READ_AT_ONCE →
      sockBytes.getD 4 0 = 0 → read_int sockBytes = some (mLen, tl) →
      (∀ c ∈ cs, c.length = READ_AT_ONCE) → bad.length < READ_AT_ONCE →
      ((sockBytes.length : Int) + cs.flatten.length + bad.length < mLen) →
      getResponse (sockBytes :: (cs ++ bad :: rest2)) = some (true, [], rest2)) := by
  refine ⟨?_, ?_, ?_, ?_⟩
  · intro hne hlt
    rw [getResponse, if_neg hne, if_pos hlt]
  · intro h5 hcomp
    have hne : sockBytes ≠ [] := by
      intro h0
      rw [h0] at h5
      simp at h5
    rw [getResponse, if_neg hne, if_neg h5, if_pos hcomp]
  · intro mLen tl h5 hcomp hint hshort hlt
    have hne : sockBytes ≠ [] := by
      intro h0
      rw [h0] at h5
      simp at h5
    rw [getResponse_cons sockBytes rest mLen tl hne h5 hcomp hint]
    rw [accumLoop_stop_short sockBytes sockBytes mLen rest hlt hshort]
  · intro mLen tl cs bad rest2 hfull hcomp hint hcs hbad hlen
    have hne : sockBytes ≠ [] := by
      intro h0
      rw [h0] at hfull
      simp [READ_AT_ONCE] at hfull
    have h5 : ¬ sockBytes.length < 5 := by
      rw [hfull]
      decide
    rw [getResponse_cons sockBytes (cs ++ bad :: rest2) mLen tl hne h5 hcomp hint]
    rw [accumLoop_short_read cs sockBytes sockBytes bad mLen rest2 hfull hcs hbad hlen]

/-- C6 witness: the four malformed cases at concrete inputs. -/
theorem claim_C6_witness :
    getResponse [[1, 2]] = some (true, [], []) ∧
    getResponse [[0, 0, 0, 9, 1, 7, 7, 7, 7]] = some (true, [], []) ∧
    getResponse [[0, 0, 0, 9, 0, 7]] = some (true, [], []) :=
  ⟨(claim_C6_malformed [1, 2] []).1 (by decide) (by decide),
   (claim_C6_malformed [0, 0, 0, 9, 1, 7, 7, 7, 7] []).2.1 (by decide) (by decide),
   (claim_C6_malformed [0, 0, 0, 9, 0, 7] []).2.2.1 9 [0, 7] (by decide) (by decide)
     (by decide) (by decide) (by decide)⟩

/-- C10: a zero-byte read arriving mid-accumulation (peer closed in the
middle of a frame) yields the retry result `True`, not the
stream-closed result; the closure is reported as stream-closed only by
the next invocation, whose first read is empty. -/
theorem claim_C10_midstream (sockBytes : List Nat) (cs rest : List (List Nat))
    (mLen : Int) (tl : List Nat)
    (hfull : sockBytes.length = READ_AT_ONCE)
    (hcomp : sockBytes.getD 4 0 = 0)
    (hint : read_int sockBytes = some (mLen, tl))
    (hcs : ∀ c ∈ cs, c.length = READ_AT_ONCE)
    (hlen : (sockBytes.length : Int) + cs.flatten.length < mLen) :
    getResponse (sockBytes :: (cs ++ [] :: rest)) = some (true, [], rest) ∧
    getResponse ([] :: rest) = some (false, [], rest) := by
  have hne : sockBytes ≠ [] := by
    intro h0
    rw [h0] at hfull
    simp [READ_AT_ONCE] at hfull
  have h5 : ¬ sockBytes.length < 5 := by
    rw [hfull]
    decide
  constructor
  · rw [getResponse_cons sockBytes (cs ++ [] :: rest) mLen tl hne h5 hcomp hint]
    rw [accumLoop_short_read cs sockBytes sockBytes [] mLen rest hfull hcs
      (by decide) (by simpa using hlen)]
  · rw [getResponse]
    simp

/-- A full-size read whose declared length exceeds the chunk size (test
vector helper for the mid-stream close case). -/
def bigRead : List Nat := [0, 0, 255, 255, 0] ++ List.replicate 4091 7

/-- C10 witness: the claim applied to a concrete full first read
followed by an empty read. -/
theorem claim_C10_witness :
    getResponse [bigRead, []] = some (true, [], []) ∧
    getResponse [[]] = some (false, [], []) := by
  have hlen : bigRead.length = READ_AT_ONCE := by
    show ([0, 0, 255, 255, 0] ++ List.replicate 4091 7).length = READ_AT_ONCE
    rw [List.length_append, List.length_replicate]
    rfl
  have hcomp : bigRead.getD 4 0 = 0 := by rfl
  have hint : read_int bigRead = some (65535, bigRead.drop 4) := by rfl
  have h := claim_C10_midstream bigRead [] [] 65535 (bigRead.drop 4) hlen hcomp
    hint (by intro c hc; simp at hc) (by rw [hlen]; norm_num [READ_AT_ONCE])
  simpa using h

/-- C5: a fully assembled frame whose identifier is not
`_buffer_line_added`, or whose identifier matches but whose type tag is
not `hda`, produces zero events and the continue result `True`. -/
theorem claim_C5_ignored (sockBytes : List Nat) (rest : List (List Nat))
    (mLen : Int) (tl : List Nat)
    (hne : sockBytes ≠ []) (h5 : ¬ sockBytes.length < 5)
    (hcomp : sockBytes.getD 4 0 = 0)
    (hint : read_int sockBytes = some (mLen, tl)) :
    (∀ buf remaining ident body1,
      accumLoop sockBytes sockBytes mLen rest = (some buf, remaining) →
      read_str (buf.drop 5) = some (ident, body1) →
      ident ≠ strB "_buffer_line_added" →
      getResponse (sockBytes :: rest) = some (true, [], remaining)) ∧
    (∀ buf remaining ident body1 dataTyp body2,
      accumLoop sockBytes sockBytes mLen rest = (some buf, remaining) →
      read_str (buf.drop 5) = some (ident, body1) →
      ident = strB "_buffer_line_added" →
      read_typ body1 = some (dataTyp, body2) →
      dataTyp ≠ strB "hda" →
      getResponse (sockBytes :: rest) = some (true, [], remaining)) := by
  constructor
  · intro buf remaining ident body1 hacc hstr hid
    rw [getResponse_cons sockBytes rest mLen tl hne h5 hcomp hint]
    have hrb : routeBody buf = some [] := by
      rw [routeBody, hstr]
      simp only [if_pos hid]
    simp only [hacc, hrb]
  · intro buf remaining ident body1 dataTyp body2 hacc hstr hid htyp hdt
    rw [getResponse_cons sockBytes rest mLen tl hne h5 hcomp hint]
    have hrb : routeBody buf = some [] := by
      rw [routeBody, hstr]
      simp only [if_neg (not_not_intro hid), htyp]
      simp only [if_pos hdt]
    simp only [hacc, hrb]

/-- A complete frame whose identifier is the single letter x (test
vector helper for the ignored-identifier case). -/
def frameX : List Nat := intBytes4 10 ++ [0] ++ encStr "x"

/-- C5 witness: the claim applied to a concrete frame with an
unrecognized identifier. -/
theorem claim_C5_witness : getResponse [frameX] = some (true, [], []) :=
  (claim_C5_ignored frameX [] 10 (frameX.drop 4) (by decide) (by decide)
    (by decide) (by decide)).1 frameX [] (strB "x") [] (by decide) (by decide)
    (by decide)

/-- C8 witness: the dispatch claim applied to a concrete configuration
with a highlight action and no private-message action. -/
theorem claim_C8_witness :
    gotHighlight (strB "hello") (strB "bob") ⟨some (strB "prog"), none⟩ =
      some [expandPaths (strB "prog"), strB "hello", strB "bob"] ∧
    gotPrivMsg (strB "hello") (strB "bob") ⟨some (strB "prog"), none⟩ = none :=
  ⟨(claim_C8_dispatch (strB "hello") (strB "bob") ⟨some (strB "prog"), none⟩).1
      (strB "prog") rfl (by decide),
   (claim_C8_dispatch (strB "hello") (strB "bob") ⟨some (strB "prog"), none⟩).2.2.2
      (Or.inl rfl)⟩

/-- Decoding an integer is unaffected by bytes past those it consumes. -/
theorem read_int_append (b s : List Nat) (v : Int) (r : List Nat)
    (h : read_int b = some (v, r)) : read_int (b ++ s) = some (v, r ++ s) := by
  match b with
  | b0 :: b1 :: b2 :: b3 :: rest =>
      simp only [read_int, List.cons_append] at h ⊢
      simp only [Option.some.injEq, Prod.mk.injEq] at h
      rw [h.1, ← h.2]
  | [] => simp [read_int] at h
  | [_] => simp [read_int] at h
  | [_, _] => simp [read_int] at h
  | [_, _, _] => simp [read_int] at h

/-- Decoding a string is unaffected by bytes past those it consumes. -/
theorem read_str_append (b s : List Nat) (v r : List Nat)
    (h : read_str b = some (v, r)) : read_str (b ++ s) = some (v, r ++ s) := by
  rw [read_str] at h
  match hint : read_int b with
  | none => simp only [hint] at h; exact Option.noConfusion h
  | some (len, rest) =>
      simp only [hint] at h
      rw [read_str]
      simp only [read_int_append b s len rest hint]
      by_cases h1 : len = -1
      · rw [if_pos h1] at h ⊢
        simp only [Option.some.injEq, Prod.mk.injEq] at h
        rw [h.1, ← h.2]
      · rw [if_neg h1] at h ⊢
        by_cases h2 : len < 0
        · rw [if_pos h2] at h
          exact Option.noConfusion h
        · rw [if_neg h2] at h ⊢
          by_cases h3 : rest.length < len.toNat
          · rw [if_pos h3] at h
            exact Option.noConfusion h
          · rw [if_neg h3] at h
            have hle : len.toNat ≤ rest.length := Nat.le_of_not_lt h3
            rw [if_neg (by rw [List.length_append]; omega)]
            simp only [Option.some.injEq, Prod.mk.injEq] at h
            rw [List.take_append_of_le_length hle, List.drop_append_of_le_length hle]
            rw [h.1, ← h.2]

/-- Decoding a type tag is unaffected by bytes past those it consumes. -/
theorem read_typ_append (b s : List Nat) (v r : List Nat)
    (h : read_typ b = some (v, r)) : read_typ (b ++ s) = some (v, r ++ s) := by
  match b with
  | t0 :: t1 :: t2 :: rest =>
      simp only [read_typ, List.cons_append] at h ⊢
      simp only [Option.some.injEq, Prod.mk.injEq] at h
      rw [h.1, ← h.2]
  | [] => simp [read_typ] at h
  | [_] => simp [read_typ] at h
  | [_, _] => simp [read_typ] at h

/-- Decoding a run of strings is unaffected by bytes past those it
consumes. -/
theorem readStrings_append (n : Nat) : ∀ (b s : List Nat) (v : List (List Nat)) (r : List Nat),
    readStrArray.readStrings n b = some (v, r) →
    readStrArray.readStrings n (b ++ s) = some (v, r ++ s) := by
  induction n with
  | zero =>
      intro b s v r h
      rw [readStrArray.readStrings] at h ⊢
      simp only [Option.some.injEq, Prod.mk.injEq] at h
      rw [h.1, ← h.2]
  | succ n ih =>
      intro b s v r h
      rw [readStrArray.readStrings] at h ⊢
      match hstr : read_str b with
      | none => simp only [hstr] at h; exact Option.noConfusion h
      | some (s0, rest0) =>
          simp only [hstr] at h
          simp only [read_str_append b s s0 rest0 hstr]
          match hrec : readStrArray.readStrings n rest0 with
          | none => simp only [hrec] at h; exact Option.noConfusion h
          | some (ss, rest1) =>
              simp only [hrec] at h
              simp only [ih rest0 s ss rest1 hrec]
              simp only [Option.some.injEq, Prod.mk.injEq] at h ⊢
              exact ⟨by rw [h.1], by rw [h.2]⟩

/-- Decoding a string array is unaffected by bytes past those it
consumes. -/
theorem readStrArray_append (b s : List Nat) (v : List (List Nat)) (r : List Nat)
    (h : readStrArray b = some (v, r)) : readStrArray (b ++ s) = some (v, r ++ s) := by
  rw [readStrArray] at h
  match htyp : read_typ b with
  | none => simp only [htyp] at h; exact Option.noConfusion h
  | some (elemTyp, b1) =>
      simp only [htyp] at h
      rw [readStrArray]
      simp only [read_typ_append b s elemTyp b1 htyp]
      by_cases he : elemTyp = strB "str"
      · rw [if_pos he] at h ⊢
        match hint : read_int b1 with
        | none => simp only [hint] at h; exact Option.noConfusion h
        | some (count, b2) =>
            simp only [hint] at h
            simp only [read_int_append b1 s count b2 hint]
            exact readStrings_append count.toNat b2 s v r h
      · rw [if_neg he] at h
        exact Option.noConfusion h

/-- Decoding one typed value is unaffected by bytes past those it
consumes. -/
theorem decodeValue_append (typ b s : List Nat) (v : HValue) (r : List Nat)
    (h : decodeValue typ b = some (v, r)) : decodeValue typ (b ++ s) = some (v, r ++ s) := by
  rw [decodeValue] at h ⊢
  by_cases h1 : typ = strB "str"
  · rw [if_pos h1] at h ⊢
    match hstr : read_str b with
    | none => simp only [hstr] at h; exact Option.noConfusion h
    | some (s0, rest0) =>
        simp only [hstr] at h
        simp only [read_str_append b s s0 rest0 hstr]
        simp only [Option.some.injEq, Prod.mk.injEq] at h ⊢
        exact ⟨by rw [h.1], by rw [h.2]⟩
  · rw [if_neg h1] at h ⊢
    by_cases h2 : typ = strB "int"
    · rw [if_pos h2] at h ⊢
      match hint : read_int b with
      | none => simp only [hint] at h; exact Option.noConfusion h
      | some (n0, rest0) =>
          simp only [hint] at h
          simp only [read_int_append b s n0 rest0 hint]
          simp only [Option.some.injEq, Prod.mk.injEq] at h ⊢
          exact ⟨by rw [h.1], by rw [h.2]⟩
    · rw [if_neg h2] at h ⊢
      by_cases h3 : typ = strB "arr"
      · rw [if_pos h3] at h ⊢
        match harr : readStrArray b with
        | none => simp only [harr] at h; exact Option.noConfusion h
        | some (xs, rest0) =>
            simp only [harr] at h
            simp only [readStrArray_append b s xs rest0 harr]
            simp only [Option.some.injEq, Prod.mk.injEq] at h ⊢
            exact ⟨by rw [h.1], by rw [h.2]⟩
      · rw [if_neg h3] at h
        exact Option.noConfusion h

/-- Decoding one record is unaffected by bytes past those it consumes. -/
theorem decodeRecord_append (keys : List (List Nat × List Nat)) :
    ∀ (b s : List Nat) (v : HdataRecord) (r : List Nat),
    decodeRecord keys b = some (v, r) →
    decodeRecord keys (b ++ s) = some (v, r ++ s) := by
  induction keys with
  | nil =>
      intro b s v r h
      rw [decodeRecord] at h ⊢
      simp only [Option.some.injEq, Prod.mk.injEq] at h
      rw [h.1, ← h.2]
  | cons kv keys ih =>
      intro b s v r h
      obtain ⟨name, typ⟩ := kv
      rw [decodeRecord] at h ⊢
      match hval : decodeValue typ b with
      | none => simp only [hval] at h; exact Option.noConfusion h
      | some (v0, b1) =>
          simp only [hval] at h
          simp only [decodeValue_append typ b s v0 b1 hval]
          match hrec : decodeRecord keys b1 with
          | none => simp only [hrec] at h; exact Option.noConfusion h
          | some (r0, b2) =>
              simp only [hrec] at h
              simp only [ih b1 s r0 b2 hrec]
              simp only [Option.some.injEq, Prod.mk.injEq] at h ⊢
              exact ⟨by rw [h.1], by rw [h.2]⟩

/-- Decoding a run of records is unaffected by bytes past those it
consumes. -/
theorem decodeRecords_append (keys : List (List Nat × List Nat)) (n : Nat) :
    ∀ (b s : List Nat) (v : List HdataRecord) (r : List Nat),
    decodeRecords keys n b = some (v, r) →
    decodeRecords keys n (b ++ s) = some (v, r ++ s) := by
  induction n with
  | zero =>
      intro b s v r h
      rw [decodeRecords] at h ⊢
      simp only [Option.some.injEq, Prod.mk.injEq] at h
      rw [h.1, ← h.2]
  | succ n ih =>
      intro b s v r h
      rw [decodeRecords] at h ⊢
      match hrec : decodeRecord keys b with
      | none => simp only [hrec] at h; exact Option.noConfusion h
      | some (r0, b1) =>
          simp only [hrec] at h
          simp only [decodeRecord_append keys b s r0 b1 hrec]
          match hrun : decodeRecords keys n b1 with
          | none => simp only [hrun] at h; exact Option.noConfusion h
          | some (rs, b2) =>
              simp only [hrun] at h
              simp only [ih b1 s rs b2 hrun]
              simp only [Option.some.injEq, Prod.mk.injEq] at h ⊢
              exact ⟨by rw [h.1], by rw [h.2]⟩

/-- Decoding an hdata value is unaffected by bytes past those it
consumes. -/
theorem read_hda_append (b s : List Nat) (v : List HdataRecord) (r : List Nat)
    (h : read_hda b = some (v, r)) : read_hda (b ++ s) = some (v, r ++ s) := by
  rw [read_hda] at h
  match hp : read_str b with
  | none => simp only [hp] at h; exact Option.noConfusion h
  | some (path0, b1) =>
      simp only [hp] at h
      rw [read_hda]
      simp only [read_str_append b s path0 b1 hp]
      match hk : read_str b1 with
      | none => simp only [hk] at h; exact Option.noConfusion h
      | some (keysStr, b2) =>
          simp only [hk] at h
          simp only [read_str_append b1 s keysStr b2 hk]
          match hc : read_int b2 with
          | none => simp only [hc] at h; exact Option.noConfusion h
          | some (count, b3) =>
              simp only [hc] at h
              simp only [read_int_append b2 s count b3 hc]
              exact decodeRecords_append _ count.toNat b3 s v r h

/-- Routing a fully assembled buffer is unaffected by surplus bytes
past the frame, when the frame body decodes on its own. -/
theorem routeBody_append (F S : List Nat) (evs : List Event)
    (h5 : 5 ≤ F.length) (h : routeBody F = some evs) :
    routeBody (F ++ S) = some evs := by
  rw [routeBody] at h
  rw [routeBody, List.drop_append_of_le_length h5]
  match hstr : read_str (F.drop 5) with
  | none => simp only [hstr] at h; exact Option.noConfusion h
  | some (ident, body1) =>
      simp only [hstr] at h
      simp only [read_str_append (F.drop 5) S ident body1 hstr]
      by_cases hid : ident ≠ strB "_buffer_line_added"
      · rw [if_pos hid] at h ⊢
        exact h
      · rw [if_neg hid] at h ⊢
        match htyp : read_typ body1 with
        | none => simp only [htyp] at h; exact Option.noConfusion h
        | some (dataTyp, body2) =>
            simp only [htyp] at h
            simp only [read_typ_append body1 S dataTyp body2 htyp]
            by_cases hdt : dataTyp ≠ strB "hda"
            · rw [if_pos hdt] at h ⊢
              exact h
            · rw [if_neg hdt] at h ⊢
              match hhda : read_hda body2 with
              | none => simp only [hhda] at h; exact Option.noConfusion h
              | some (hdaData, left) =>
                  simp only [hhda] at h
                  simp only [read_hda_append body2 S hdaData left hhda]
                  exact h

/-- C9: when a single read delivers a well-formed frame plus surplus
bytes of a following frame, only the frame content determines the
decoded result; the surplus sits in the body slice but is discarded on
return, and is never treated as the start of the next frame (the reads
left pending are exactly the later ones). -/
theorem claim_C9_surplus (F S : List Nat) (rest : List (List Nat))
    (mLen : Int) (tl : List Nat) (evs : List Event)
    (h5 : 5 ≤ F.length) (hcomp : F.getD 4 0 = 0)
    (hint : read_int F = some (mLen, tl))
    (hmlen : (F.length : Int) = mLen)
    (hrb : routeBody F = some evs) :
    getResponse ((F ++ S) :: rest) = some (true, evs, rest) ∧
    getResponse (F :: rest) = some (true, evs, rest) := by
  have hneF : F ≠ [] := by
    intro h0
    rw [h0] at h5
    simp at h5
  have h5F : ¬ F.length < 5 := by omega
  constructor
  · have hne2 : F ++ S ≠ [] := by
      intro h0
      exact hneF (List.append_eq_nil.mp h0).1
    have h52 : ¬ (F ++ S).length < 5 := by
      rw [List.length_append]
      omega
    have hcomp2 : (F ++ S).getD 4 0 = 0 := by
      rw [List.getD_append F S 0 4 (by omega)]
      exact hcomp
    rw [getResponse_cons (F ++ S) rest mLen (tl ++ S) hne2 h52 hcomp2
      (read_int_append F S mLen tl hint)]
    rw [accumLoop_stop_done _ _ _ _ (by rw [List.length_append]; push_cast; omega)]
    simp only [routeBody_append F S evs h5 hrb]
  · rw [getResponse_cons F rest mLen tl hneF h5F hcomp hint]
    rw [accumLoop_stop_done _ _ _ _ (by omega)]
    simp only [hrb]

/-- C9 witness: the claim applied to a concrete frame followed by three
surplus bytes. -/
theorem claim_C9_witness :
    getResponse [mkFrame "hi" ["nick_bob"] 1 ++ [9, 9, 9]] =
      some (true, [Event.highlight (strB "hi") (strB "bob")], []) ∧
    getResponse [mkFrame "hi" ["nick_bob"] 1] =
      some (true, [Event.highlight (strB "hi") (strB "bob")], []) :=
  claim_C9_surplus (mkFrame "hi" ["nick_bob"] 1) [9, 9, 9] [] 111
    ((mkFrame "hi" ["nick_bob"] 1).drop 4) [Event.highlight (strB "hi") (strB "bob")]
    (by decide) (by decide) (by decide) (by decide) (by decide)

/-- A buffer with at least 4 bytes always decodes an integer. -/
theorem read_int_total (b : List Nat) (h4 : 4 ≤ b.length) :
    ∃ v r, read_int b = some (v, r) := by
  match b with
  | b0 :: b1 :: b2 :: b3 :: rest => exact ⟨_, _, rfl⟩
  | [] => simp at h4
  | [_] => simp at h4
  | [_, _] => simp at h4
  | [_, _, _] => simp at h4

/-- On a nonempty list the proof-carrying last element agrees with the
defaulted one. -/
theorem getLast_eq_getLastD : ∀ (l : List (List Nat)) (h : l ≠ []) (d : List Nat),
    l.getLast h = l.getLastD d
  | [a], _, d => rfl
  | a :: b :: l2, _, d => by
      rw [List.getLastD_cons]
      exact getLast_eq_getLastD (b :: l2) (by simp) a

/-- C1 (amended): splitting a valid frame into successive reads yields
the same result as a single read when every read made while the buffer
is still short of the declared length returns exactly `READ_AT_ONCE`
bytes — that is, when all chunks except the last are full; arbitrary
smaller chunkings are instead discarded (see the counterexample). -/
theorem claim_C1_chunked (F : List Nat) (chunks rest : List (List Nat))
    (mLen : Int) (tl : List Nat)
    (hjoin : chunks.flatten = F)
    (hne : chunks ≠ [])
    (hsizes : ∀ c ∈ chunks.dropLast, c.length = READ_AT_ONCE)
    (hlast : chunks.getLastD [] ≠ [])
    (h5 : 5 ≤ F.length)
    (hcomp : F.getD 4 0 = 0)
    (hint : read_int F = some (mLen, tl))
    (hmlen : (F.length : Int) = mLen) :
    getResponse (chunks ++ rest) = getResponse (F :: rest) := by
  have hneF : F ≠ [] := by
    intro h0
    rw [h0] at h5
    simp at h5
  have h5F : ¬ F.length < 5 := by omega
  cases chunks with
  | nil => exact absurd rfl hne
  | cons c cs =>
      cases cs with
      | nil =>
          have hc : c = F := by simpa using hjoin
          rw [hc]
          rfl
      | cons c2 cs2 =>
          have htne : (c2 :: cs2 : List (List Nat)) ≠ [] := by simp
          have hflat : F = c ++ (c2 :: cs2).flatten := by
            rw [← hjoin, List.flatten_cons]
          have hcfull : c.length = READ_AT_ONCE := by
            apply hsizes
            rw [List.dropLast_cons_of_ne_nil htne]
            exact List.mem_cons_self _ _
          have hcne : c ≠ [] := by
            intro h0
            rw [h0] at hcfull
            simp [READ_AT_ONCE] at hcfull
          have hc5 : ¬ c.length < 5 := by
            rw [hcfull]
            decide
          have hccomp : c.getD 4 0 = 0 := by
            rw [hflat, List.getD_append c _ 0 4 (by rw [hcfull]; decide)] at hcomp
            exact hcomp
          obtain ⟨v, r, hrc⟩ := read_int_total c (by rw [hcfull]; decide)
          have hvm : read_int F = some (v, r ++ (c2 :: cs2).flatten) := by
            rw [hflat]
            exact read_int_append c _ v r hrc
          rw [hint] at hvm
          have hv : mLen = v := congrArg Prod.fst (Option.some.inj hvm)
          subst hv
          have hsum : ((c.length : Int)) + (c2 :: cs2).flatten.length = mLen := by
            rw [hflat, List.length_append] at hmlen
            push_cast at hmlen ⊢
            omega
          have hacc1 : accumLoop c c mLen ((c2 :: cs2) ++ rest) =
              (some (c ++ (c2 :: cs2).flatten), rest) := by
            apply accumLoop_complete (c2 :: cs2) c c mLen rest hcfull ?_ htne ?_ hsum
            · intro u hu
              apply hsizes
              rw [List.dropLast_cons_of_ne_nil htne]
              exact List.mem_cons_of_mem _ hu
            · rw [getLast_eq_getLastD (c2 :: cs2) htne c]
              exact hlast
          rw [List.cons_append]
          rw [getResponse_cons c ((c2 :: cs2) ++ rest) mLen r hcne hc5 hccomp hrc]
          rw [getResponse_cons F rest mLen tl hneF h5F hcomp hint]
          rw [hacc1, ← hflat]
          rw [accumLoop_stop_done F F mLen rest (by omega)]

/-- C1 counterexample: a valid 111-byte frame delivered in one read
emits a Highlight event, but delivered one byte at a time it is
discarded at the first 1-byte read with no events — the decoded result
and the emitted events differ. -/
theorem claim_C1_counterexample :
    getResponse [mkFrame "hi" ["nick_bob"] 1] =
      some (true, [Event.highlight (strB "hi") (strB "bob")], []) ∧
    getResponse ((mkFrame "hi" ["nick_bob"] 1).map fun b => [b]) =
      some (true, [], ((mkFrame "hi" ["nick_bob"] 1).map fun b => [b]).tail) ∧
    ([Event.highlight (strB "hi") (strB "bob")] : List Event) ≠ ([] : List Event) := by
  decide

/-- C1 witness: the amended claim applied to a concrete frame delivered
as a single full chunk. -/
theorem claim_C1_witness :
    getResponse ([mkFrame "hi" ["nick_bob"] 1] ++ []) =
      getResponse (mkFrame "hi" ["nick_bob"] 1 :: []) :=
  claim_C1_chunked (mkFrame "hi" ["nick_bob"] 1) [mkFrame "hi" ["nick_bob"] 1] []
    111 ((mkFrame "hi" ["nick_bob"] 1).drop 4) (by decide) (by decide) (by decide)
    (by decide) (by decide) (by decide) (by decide) (by decide)
